import Mathlib

/-!
Verification of the stegegg steganographic encoding engine.

The development shallowly embeds the core of src/main.rs:
the xoshiro256++ pseudo-random generator, the key seeder, the
permutation builder (shuffle over the vector of hiding-spot indices),
the frame codec built inline in main, and the embed (hide_data) and
extract (extract_data) algorithms.

Machine integers are modelled as Nat with explicit reduction mod 2 ^ 64
or 2 ^ 32 where wraparound matters.  Vec indexing that can panic in the
extractor is modelled with Option (a none result stands for a Rust
panic); indexing that is always in bounds on reachable inputs is
modelled with the total getD / set operations, whose out-of-range
behavior is never exercised.  The Rust error strings are modelled as a
structured error type carrying the same data that is formatted into the
message.
-/

namespace Stegegg

/-- State of the xoshiro256++ generator: four unsigned 64-bit words,
from struct PrngState(u64, u64, u64, u64) in src/main.rs. -/
structure PrngState where
  s0 : Nat
  s1 : Nat
  s2 : Nat
  s3 : Nat
deriving DecidableEq, Repr

/-- fn rotl(x: u64, k: u64) -> u64 from src/main.rs.  The u64 shift left
wraps mod 2 ^ 64; the shift right is exact. -/
def rotl (x k : Nat) : Nat :=
  ((x <<< k) % 2 ^ 64) ||| (x >>> (64 - k))

/-- fn xoshiro256pp(s: &mut PrngState) -> u64 from src/main.rs, with the
state passed and returned explicitly.  Additions wrap mod 2 ^ 64. -/
def xoshiro256pp (s : PrngState) : Nat × PrngState :=
  let result := (rotl ((s.s0 + s.s3) % 2 ^ 64) 23 + s.s0) % 2 ^ 64
  let t := (s.s1 <<< 17) % 2 ^ 64
  let s2a := s.s2 ^^^ s.s0
  let s3a := s.s3 ^^^ s.s1
  let s1a := s.s1 ^^^ s2a
  let s0a := s.s0 ^^^ s3a
  let s2b := s2a ^^^ t
  let s3b := rotl s3a 45
  (result, ⟨s0a, s1a, s2b, s3b⟩)

/-- Vec::swap(i, j): exchange the elements at positions i and j.  In the
source both indices are always in bounds (i ranges over 0..len and j is
reduced mod len); List.set is a no-op out of range, which is never
exercised there. -/
def swapL (l : List Nat) (i j : Nat) : List Nat :=
  (l.set i (l.getD j 0)).set j (l.getD i 0)

/-- fn shuffle(v: &mut Vec<u32>, prng_state: &mut PrngState) from
src/main.rs: for i in 0..v.len(), draw r, swap v[i] with v[r mod len]. -/
def shuffle (v : List Nat) (s : PrngState) : List Nat × PrngState :=
  (List.range v.length).foldl
    (fun p i =>
      let rs := xoshiro256pp p.2
      (swapL p.1 i (rs.1 % p.1.length), rs.2))
    (v, s)

/-- fn get_bit(b: u8, n: u8) -> u8 from src/main.rs. -/
def getBit (b n : Nat) : Nat :=
  (b >>> n) &&& 1

/-- The RGB image: a width x height grid of 3-byte pixels, stored like
image::RgbImage as a flat row-major buffer of channel bytes, so that the
channel c of the pixel at (x, y) lives at offset (y*width + x)*3 + c. -/
structure Image where
  width : Nat
  height : Nat
  data : List Nat
deriving DecidableEq, Repr

/-- Total hiding-spot count width * height * 3, the value
hidding_spots = width * image.height() * channels in src/main.rs. -/
def hiddingSpots (img : Image) : Nat :=
  img.width * img.height * 3

/-- image.get_pixel(x, y)[c]: read one channel byte. -/
def getPixelCh (img : Image) (x y c : Nat) : Nat :=
  img.data.getD ((y * img.width + x) * 3 + c) 0

/-- image.get_pixel_mut(x, y)[c] = v: write one channel byte. -/
def setPixelCh (img : Image) (x y c v : Nat) : Image :=
  { img with data := img.data.set ((y * img.width + x) * 3 + c) v }

/-- Read the channel byte addressed by a spot index, following the
address computation shared by hide_data and extract_data in src/main.rs:
color_offset = spot % 3, pixel_idx = spot / 3, x = pixel_idx % width,
y = pixel_idx / width. -/
def spotRead (img : Image) (spot : Nat) : Nat :=
  let color_offset := spot % 3
  let pixel_idx := spot / 3
  let x := pixel_idx % img.width
  let y := pixel_idx / img.width
  getPixelCh img x y color_offset

/-- One write of the hide_data loop body in src/main.rs:
pixel[color_offset] = pixel[color_offset] & 0xfe | bit at the spot
addressed exactly as in spotRead. -/
def spotWrite (img : Image) (spot bit : Nat) : Image :=
  let color_offset := spot % 3
  let pixel_idx := spot / 3
  let x := pixel_idx % img.width
  let y := pixel_idx / img.width
  setPixelCh img x y color_offset ((getPixelCh img x y color_offset &&& 0xfe) ||| bit)

/-- Structured rendering of the error strings produced by the core.
capacity needed available is the string "Input message is too large.
(Cant hide needed bits into available hidding spots!)" returned by
hide_data; oversizedHeader is the wrong-key message returned by
extract_data. -/
inductive StegoError where
  | capacity (needed available : Nat)
  | oversizedHeader
deriving DecidableEq, Repr

/-- The nested message loop of fn hide_data: for each byte b of data,
for n in 0..8, write get_bit(b, n) to the spot indices[iidx] and
increment iidx.  The state is the image together with iidx. -/
def hideLoop (ids : List Nat) (data : List Nat) (st : Image × Nat) : Image × Nat :=
  data.foldl
    (fun st b =>
      (List.range 8).foldl
        (fun st n => (spotWrite st.1 (ids.getD st.2 0) (getBit b n), st.2 + 1))
        st)
    st

/-- fn hide_data(data, image, prng_state) from src/main.rs.  The result
carries the Rust Result together with the final image and PRNG state
(both are behind &mut in the source). -/
def hide_data (data : List Nat) (img : Image) (s : PrngState) :
    Except StegoError Unit × Image × PrngState :=
  let spots := hiddingSpots img
  if data.length * 8 > spots then
    (.error (.capacity (data.length * 8) spots), img, s)
  else
    let is := shuffle (List.range spots) s
    (.ok (), (hideLoop is.1 data (img, 0)).1, is.2)

/-- One byte recovery of fn extract_data: starting from 0, for n in
0..8, OR (channel byte at indices[iidx + n] & 1) << n into the byte.
The Vec indexing indices[iidx + n] panics when out of bounds, modelled
by the none result. -/
def extractByte (img : Image) (ids : List Nat) (iidx : Nat) : Option Nat :=
  (List.range 8).foldl
    (fun acc n => do
      let b ← acc
      let spot ← ids[iidx + n]?
      some (b ||| ((spotRead img spot &&& 1) <<< n)))
    (some 0)

/-- The message loop of fn extract_data: recover count bytes starting
at permutation position iidx. -/
def extractMsg (img : Image) (ids : List Nat) (iidx : Nat) : Nat → Option (List Nat)
  | 0 => some []
  | c + 1 => do
    let b ← extractByte img ids iidx
    let rest ← extractMsg img ids (iidx + 8) c
    some (b :: rest)

/-- fn extract_data(image, prng_state) from src/main.rs.  none stands
for a Rust panic (out-of-bounds Vec indexing); some (.error e) is the
Err return; some (.ok msg) is the recovered message. -/
def extract_data (img : Image) (s : PrngState) : Option (Except StegoError (List Nat)) :=
  let spots := hiddingSpots img
  let is := shuffle (List.range spots) s
  do
    let h0 ← extractByte img is.1 0
    let h1 ← extractByte img is.1 8
    let h2 ← extractByte img is.1 16
    let msg_len := h0 ||| (h1 <<< 8) ||| (h2 <<< 16)
    if msg_len * 8 + 3 > spots then
      some (.error .oversizedHeader)
    else do
      let msg ← extractMsg img is.1 24 msg_len
      some (.ok msg)

/-- The inline framing in fn main of src/main.rs: a 3-byte little-endian
length header followed by the message.  Note the source performs no
range check on msg.len(); the header simply keeps the low 24 bits. -/
def frame (msg : List Nat) : List Nat :=
  (msg.length &&& 0xff) ::
    ((msg.length >>> 8) &&& 0xff) ::
      ((msg.length >>> 16) &&& 0xff) :: msg

/-! ### SHA-256 and the key seeder

fn main seeds the generator with Sha256::digest(user_key) split into
four big-endian u64 words.  The digest computation lives in the sha2
crate, outside this repository; the definitions below are modelled from
the spec: a SHA-256 digest of the key (FIPS 180-4), producing the
32-byte digest that main splits. -/

/-- 32-bit right rotation used by SHA-256. -/
def rotr32 (x n : Nat) : Nat :=
  (x >>> n) ||| ((x <<< (32 - n)) % 2 ^ 32)

/-- SHA-256 small sigma 0. -/
def ssig0 (x : Nat) : Nat :=
  rotr32 x 7 ^^^ rotr32 x 18 ^^^ (x >>> 3)

/-- SHA-256 small sigma 1. -/
def ssig1 (x : Nat) : Nat :=
  rotr32 x 17 ^^^ rotr32 x 19 ^^^ (x >>> 10)

/-- SHA-256 big sigma 0. -/
def bsig0 (x : Nat) : Nat :=
  rotr32 x 2 ^^^ rotr32 x 13 ^^^ rotr32 x 22

/-- SHA-256 big sigma 1. -/
def bsig1 (x : Nat) : Nat :=
  rotr32 x 6 ^^^ rotr32 x 11 ^^^ rotr32 x 25

/-- SHA-256 choice function; the complement is taken within 32 bits. -/
def chF (x y z : Nat) : Nat :=
  (x &&& y) ^^^ ((x ^^^ 0xffffffff) &&& z)

/-- SHA-256 majority function. -/
def majF (x y z : Nat) : Nat :=
  (x &&& y) ^^^ (x &&& z) ^^^ (y &&& z)

/-- The 64 SHA-256 round constants. -/
def sha256K : List Nat :=
  [1116352408, 1899447441, 3049323471, 3921009573, 961987163,
   1508970993, 2453635748, 2870763221, 3624381080, 310598401,
   607225278, 1426881987, 1925078388, 2162078206, 2614888103,
   3248222580, 3835390401, 4022224774, 264347078, 604807628,
   770255983, 1249150122, 1555081692, 1996064986, 2554220882,
   2821834349, 2952996808, 3210313671, 3336571891, 3584528711,
   113926993, 338241895, 666307205, 773529912, 1294757372,
   1396182291, 1695183700, 1986661051, 2177026350, 2456956037,
   2730485921, 2820302411, 3259730800, 3345764771, 3516065817,
   3600352804, 4094571909, 275423344, 430227734, 506948616,
   659060556, 883997877, 958139571, 1322822218, 1537002063,
   1747873779, 1955562222, 2024104815, 2227730452, 2361852424,
   2428436474, 2756734187, 3204031479, 3329325298]

/-- The SHA-256 initial hash value. -/
def sha256H0 : List Nat :=
  [1779033703, 3144134277, 1013904242, 2773480762,
   1359893119, 2600822924, 528734635, 1541459225]

/-- Big-endian byte rendering of x on n bytes. -/
def beBytes (n x : Nat) : List Nat :=
  (List.range n).map (fun i => (x >>> (8 * (n - 1 - i))) &&& 0xff)

/-- SHA-256 padding: append 0x80, zeros to 56 mod 64, and the 8-byte
big-endian bit length. -/
def sha256pad (msg : List Nat) : List Nat :=
  msg ++ 0x80 :: List.replicate ((119 - msg.length % 64) % 64) 0
    ++ beBytes 8 (msg.length * 8)

/-- Split a byte list into 64-byte blocks; the fuel argument (at least
the list length at every call) makes the recursion structural. -/
def chunks64Go : Nat → List Nat → List (List Nat)
  | _, [] => []
  | 0, _ :: _ => []
  | fuel + 1, b :: t => ((b :: t).take 64) :: chunks64Go fuel ((b :: t).drop 64)

/-- Split a byte list into 64-byte blocks. -/
def chunks64 (l : List Nat) : List (List Nat) :=
  chunks64Go l.length l

/-- Pack bytes into big-endian 32-bit words. -/
def toWords : List Nat → List Nat
  | b0 :: b1 :: b2 :: b3 :: rest =>
      ((b0 <<< 24) ||| (b1 <<< 16) ||| (b2 <<< 8) ||| b3) :: toWords rest
  | _ => []

/-- Extend the 16 block words to the 64-entry message schedule. -/
def schedule (w16 : List Nat) : List Nat :=
  (List.range 48).foldl
    (fun w _ =>
      let n := w.length
      w ++ [(w.getD (n - 16) 0 + ssig0 (w.getD (n - 15) 0) + w.getD (n - 7) 0
              + ssig1 (w.getD (n - 2) 0)) % 2 ^ 32])
    w16

/-- One SHA-256 compression round on the 8-word working state. -/
def sha256Round (w : List Nat) (st : List Nat) (i : Nat) : List Nat :=
  let a := st.getD 0 0
  let b := st.getD 1 0
  let c := st.getD 2 0
  let d := st.getD 3 0
  let e := st.getD 4 0
  let f := st.getD 5 0
  let g := st.getD 6 0
  let h := st.getD 7 0
  let t1 := (h + bsig1 e + chF e f g + sha256K.getD i 0 + w.getD i 0) % 2 ^ 32
  let t2 := (bsig0 a + majF a b c) % 2 ^ 32
  [(t1 + t2) % 2 ^ 32, a, b, c, (d + t1) % 2 ^ 32, e, f, g]

/-- Compress one 64-byte block into the running hash value. -/
def compressBlock (H : List Nat) (block : List Nat) : List Nat :=
  let w := schedule (toWords block)
  let st := (List.range 64).foldl (sha256Round w) H
  List.zipWith (fun x y => (x + y) % 2 ^ 32) H st

/-- Modelled from the spec: the 256-bit cryptographic hash digest of the
key (SHA-256 from the sha2 crate, whose source is not part of this
repository), as a list of 32 bytes. -/
def sha256 (msg : List Nat) : List Nat :=
  ((chunks64 (sha256pad msg)).foldl compressBlock sha256H0).flatMap
    (fun w => [(w >>> 24) &&& 0xff, (w >>> 16) &&& 0xff, (w >>> 8) &&& 0xff, w &&& 0xff])

/-- u64::from_be_bytes on a list of 8 bytes. -/
def fromBeBytes (l : List Nat) : Nat :=
  l.foldl (fun acc b => acc * 256 + b) 0

/-- The key seeder from fn main of src/main.rs: hash the user key with
SHA-256 and split the 32-byte digest into four consecutive big-endian
u64 state words. -/
def seed (key : List Nat) : PrngState :=
  let d := sha256 key
  ⟨fromBeBytes (d.take 8), fromBeBytes ((d.drop 8).take 8),
   fromBeBytes ((d.drop 16).take 8), fromBeBytes ((d.drop 24).take 8)⟩

/-! ### Proof scaffolding: the embed loop as a flat sequence of writes -/

/-- Apply a list of (spot, bit) writes in order. -/
def applyWrites (img : Image) (ws : List (Nat × Nat)) : Image :=
  ws.foldl (fun im sb => spotWrite im sb.1 sb.2) img

/-- The flat (spot, bit) write list performed by the hide_data loop on
the given data starting at permutation position iidx. -/
def hideWrites (ids : List Nat) : List Nat → Nat → List (Nat × Nat)
  | [], _ => []
  | b :: rest, iidx =>
      (List.range 8).map (fun n => (ids.getD (iidx + n) 0, getBit b n))
        ++ hideWrites ids rest (iidx + 8)

/-- The 64-bit rotation as written in the spec, section 4.2:
rotl64(x,k) = (x shl k) or (x shr (64-k)), computed with wraparound in
64-bit unsigned arithmetic.  Stated separately from rotl to compare the
source against the spec text. -/
def rotlSpec (x k : Nat) : Nat :=
  ((x <<< k) ||| (x >>> (64 - k))) % 2 ^ 64

/-- The PRG step exactly as listed in the spec, section 4.2: the result
formula rotl64(s0 + s3, 23) + s0 followed by the seven state-update
steps, all in wrapping 64-bit arithmetic. -/
def nextSpec (s : PrngState) : Nat × PrngState :=
  let result := (rotlSpec ((s.s0 + s.s3) % 2 ^ 64) 23 + s.s0) % 2 ^ 64
  let t := (s.s1 <<< 17) % 2 ^ 64
  let s2 := s.s2 ^^^ s.s0
  let s3 := s.s3 ^^^ s.s1
  let s1 := s.s1 ^^^ s2
  let s0 := s.s0 ^^^ s3
  let s2' := s2 ^^^ t
  let s3' := rotlSpec s3 45
  (result, ⟨s0, s1, s2', s3'⟩)

/-! ### Spot addressing -/

theorem spot_addr (w spot : Nat) :
    (spot / 3 / w * w + spot / 3 % w) * 3 + spot % 3 = spot := by
  rw [Nat.mul_comm (spot / 3 / w) w, Nat.div_add_mod (spot / 3) w,
    Nat.mul_comm (spot / 3) 3, Nat.div_add_mod spot 3]

theorem spotRead_eq (img : Image) (spot : Nat) :
    spotRead img spot = img.data.getD spot 0 := by
  simp only [spotRead, getPixelCh]
  rw [spot_addr]

theorem spotWrite_eq (img : Image) (spot bit : Nat) :
    spotWrite img spot bit =
      { img with data := img.data.set spot ((img.data.getD spot 0 &&& 0xfe) ||| bit) } := by
  simp only [spotWrite, setPixelCh, getPixelCh]
  rw [spot_addr]

/-! ### The shuffle always produces a permutation -/

theorem swap_cons_perm (t : List Nat) (k a : Nat) (hk : k < t.length) :
    (t.getD k 0 :: t.set k a).Perm (a :: t) := by
  induction t generalizing k with
  | nil => simp at hk
  | cons b t' ih =>
    cases k with
    | zero => simpa using List.Perm.swap a b t'
    | succ m =>
      have hm : m < t'.length := by simpa using hk
      exact ((List.Perm.swap b _ _).trans
        (List.Perm.cons b (ih m hm))).trans (List.Perm.swap a b t')

theorem swapL_perm (l : List Nat) (i j : Nat) (hi : i < l.length) (hj : j < l.length) :
    (swapL l i j).Perm l := by
  induction l generalizing i j with
  | nil => simp at hi
  | cons a t ih =>
    cases i with
    | zero =>
      cases j with
      | zero => simp [swapL]
      | succ k =>
        have hk : k < t.length := by simpa using hj
        simpa [swapL] using swap_cons_perm t k a hk
    | succ m =>
      have hm : m < t.length := by simpa using hi
      cases j with
      | zero =>
        simpa [swapL] using swap_cons_perm t m a hm
      | succ k =>
        have hk : k < t.length := by simpa using hj
        have : swapL (a :: t) (m + 1) (k + 1) = a :: swapL t m k := by
          simp [swapL]
        rw [this]
        exact List.Perm.cons a (ih m k hm hk)

theorem foldl_swap_perm (is : List Nat) (l : List Nat) (s : PrngState)
    (h : ∀ i ∈ is, i < l.length) :
    ((is.foldl
        (fun p i =>
          let rs := xoshiro256pp p.2
          (swapL p.1 i (rs.1 % p.1.length), rs.2))
        (l, s)).1).Perm l := by
  induction is generalizing l s with
  | nil => simp
  | cons i rest ih =>
    have hi : i < l.length := h i (by simp)
    have hlen : 0 < l.length := Nat.lt_of_le_of_lt (Nat.zero_le i) hi
    have hj : (xoshiro256pp s).1 % l.length < l.length := Nat.mod_lt _ hlen
    have hstep : (swapL l i ((xoshiro256pp s).1 % l.length)).Perm l :=
      swapL_perm l i _ hi hj
    have hlen' : (swapL l i ((xoshiro256pp s).1 % l.length)).length = l.length :=
      hstep.length_eq
    have h' : ∀ i' ∈ rest, i' < (swapL l i ((xoshiro256pp s).1 % l.length)).length := by
      intro i' hi'
      rw [hlen']
      exact h i' (by simp [hi'])
    simpa using (ih _ (xoshiro256pp s).2 h').trans hstep

theorem shuffle_perm (v : List Nat) (s : PrngState) : ((shuffle v s).1).Perm v := by
  unfold shuffle
  exact foldl_swap_perm (List.range v.length) v s (fun i hi => List.mem_range.mp hi)

theorem shuffle_range_perm (n : Nat) (s : PrngState) :
    ((shuffle (List.range n) s).1).Perm (List.range n) :=
  shuffle_perm (List.range n) s

theorem shuffle_range_length (n : Nat) (s : PrngState) :
    (shuffle (List.range n) s).1.length = n := by
  simpa using (shuffle_range_perm n s).length_eq

theorem shuffle_range_nodup (n : Nat) (s : PrngState) :
    (shuffle (List.range n) s).1.Nodup :=
  (shuffle_range_perm n s).nodup_iff.mpr (List.nodup_range n)

theorem shuffle_range_getD_lt (n : Nat) (s : PrngState) (k : Nat) (hk : k < n) :
    (shuffle (List.range n) s).1.getD k 0 < n := by
  have hk' : k < (shuffle (List.range n) s).1.length := by
    rw [shuffle_range_length]; exact hk
  have hmem : (shuffle (List.range n) s).1.getD k 0 ∈ (shuffle (List.range n) s).1 := by
    rw [List.getD_eq_getElem _ _ hk']
    exact List.getElem_mem hk'
  exact List.mem_range.mp ((shuffle_range_perm n s).mem_iff.mp hmem)

/-! ### List getD helpers -/

theorem getD_set_ne (l : List Nat) (s p v : Nat) (h : s ≠ p) :
    (l.set s v).getD p 0 = l.getD p 0 := by
  simp [List.getD_eq_getElem?_getD, List.getElem?_set_ne h]

theorem getD_set_self (l : List Nat) (s v : Nat) (h : s < l.length) :
    (l.set s v).getD s 0 = v := by
  simp [List.getD_eq_getElem?_getD, List.getElem?_set_self h]

/-! ### Characterizing the embed loop -/

theorem hideByte_eq (ids : List Nat) (b : Nat) (img : Image) (iidx : Nat) :
    (List.range 8).foldl
        (fun st n => (spotWrite st.1 (ids.getD st.2 0) (getBit b n), st.2 + 1))
        (img, iidx) =
      (applyWrites img ((List.range 8).map (fun n => (ids.getD (iidx + n) 0, getBit b n))),
        iidx + 8) := by
  have h8 : List.range 8 = [0, 1, 2, 3, 4, 5, 6, 7] := by decide
  simp [h8, applyWrites, Nat.add_assoc]

theorem hideLoop_eq (ids : List Nat) (data : List Nat) (img : Image) (iidx : Nat) :
    hideLoop ids data (img, iidx) =
      (applyWrites img (hideWrites ids data iidx), iidx + 8 * data.length) := by
  induction data generalizing img iidx with
  | nil => simp [hideLoop, hideWrites, applyWrites]
  | cons b rest ih =>
    show List.foldl _ _ _ = _
    rw [List.foldl_cons, hideByte_eq]
    have := ih (applyWrites img ((List.range 8).map
      (fun n => (ids.getD (iidx + n) 0, getBit b n)))) (iidx + 8)
    rw [show (List.foldl _ _ _ : Image × Nat) = hideLoop ids rest _ from rfl, this]
    simp only [Prod.mk.injEq]
    constructor
    · simp [hideWrites, applyWrites, List.foldl_append]
    · simp only [List.length_cons]
      omega

theorem spotWrite_width (img : Image) (s b : Nat) : (spotWrite img s b).width = img.width := by
  simp [spotWrite, setPixelCh]

theorem spotWrite_height (img : Image) (s b : Nat) : (spotWrite img s b).height = img.height := by
  simp [spotWrite, setPixelCh]

theorem spotWrite_length (img : Image) (s b : Nat) :
    (spotWrite img s b).data.length = img.data.length := by
  rw [spotWrite_eq]
  simp

theorem applyWrites_width (img : Image) (ws : List (Nat × Nat)) :
    (applyWrites img ws).width = img.width := by
  induction ws generalizing img with
  | nil => rfl
  | cons sb rest ih => simp [applyWrites, List.foldl_cons] at ih ⊢
                       rw [ih, spotWrite_width]

theorem applyWrites_height (img : Image) (ws : List (Nat × Nat)) :
    (applyWrites img ws).height = img.height := by
  induction ws generalizing img with
  | nil => rfl
  | cons sb rest ih => simp [applyWrites, List.foldl_cons] at ih ⊢
                       rw [ih, spotWrite_height]

theorem applyWrites_length (img : Image) (ws : List (Nat × Nat)) :
    (applyWrites img ws).data.length = img.data.length := by
  induction ws generalizing img with
  | nil => rfl
  | cons sb rest ih => simp [applyWrites, List.foldl_cons] at ih ⊢
                       rw [ih, spotWrite_length]

theorem applyWrites_getD_not_mem (img : Image) (ws : List (Nat × Nat)) (p : Nat)
    (h : ∀ sb ∈ ws, sb.1 ≠ p) :
    (applyWrites img ws).data.getD p 0 = img.data.getD p 0 := by
  induction ws generalizing img with
  | nil => rfl
  | cons sb rest ih =>
    have hne : sb.1 ≠ p := h sb (by simp)
    have hrest : ∀ sb' ∈ rest, sb'.1 ≠ p := fun sb' hm => h sb' (by simp [hm])
    simp only [applyWrites, List.foldl_cons] at ih ⊢
    rw [ih _ hrest, spotWrite_eq]
    exact getD_set_ne _ _ _ _ hne

theorem write_val_testBit (x b i : Nat) (hb : b < 2) (h1 : 1 ≤ i) (h7 : i ≤ 7) :
    (((x &&& 0xfe) ||| b).testBit i) = x.testBit i := by
  have hbi : b.testBit i = false := by
    apply Nat.testBit_lt_two_pow
    calc b < 2 := hb
      _ = 2 ^ 1 := by norm_num
      _ ≤ 2 ^ i := Nat.pow_le_pow_right (by norm_num) h1
  have hfe : (0xfe : Nat).testBit i = true := by
    interval_cases i <;> decide
  simp [Nat.testBit_or, Nat.testBit_and, hbi, hfe]

theorem applyWrites_testBit (img : Image) (ws : List (Nat × Nat)) (p i : Nat)
    (hb : ∀ sb ∈ ws, sb.2 < 2) (h1 : 1 ≤ i) (h7 : i ≤ 7) :
    ((applyWrites img ws).data.getD p 0).testBit i = (img.data.getD p 0).testBit i := by
  induction ws generalizing img with
  | nil => rfl
  | cons sb rest ih =>
    have hbsb : sb.2 < 2 := hb sb (by simp)
    have hbrest : ∀ sb' ∈ rest, sb'.2 < 2 := fun sb' hm => hb sb' (by simp [hm])
    simp only [applyWrites, List.foldl_cons] at ih ⊢
    rw [ih _ hbrest, spotWrite_eq]
    by_cases hsp : sb.1 = p
    · subst hsp
      by_cases hin : sb.1 < img.data.length
      · rw [getD_set_self _ _ _ hin]
        exact write_val_testBit _ _ _ hbsb h1 h7
      · rw [List.set_eq_of_length_le (Nat.le_of_not_lt hin)]
    · rw [getD_set_ne _ _ _ _ hsp]

theorem lsb_write_val (x b : Nat) (hb : b < 2) : ((x &&& 0xfe) ||| b) &&& 1 = b := by
  apply Nat.eq_of_testBit_eq
  intro i
  cases i with
  | zero =>
    simp only [Nat.testBit_and, Nat.testBit_or]
    have h254 : (0xfe : Nat).testBit 0 = false := by decide
    have h1 : (1 : Nat).testBit 0 = true := by decide
    simp [h254, h1]
  | succ m =>
    simp only [Nat.testBit_and, Nat.testBit_or]
    have hpow : (2 : Nat) ^ 1 ≤ 2 ^ (m + 1) := Nat.pow_le_pow_right (by norm_num) (by omega)
    have h1 : (1 : Nat).testBit (m + 1) = false := by
      apply Nat.testBit_lt_two_pow
      omega
    have hbt : b.testBit (m + 1) = false := by
      apply Nat.testBit_lt_two_pow
      omega
    simp [h1, hbt]

theorem applyWrites_lsb (img : Image) (ws : List (Nat × Nat))
    (hnd : (ws.map Prod.fst).Nodup) (k : Nat) (hk : k < ws.length)
    (hs : (ws.getD k (0, 0)).1 < img.data.length) (hb : (ws.getD k (0, 0)).2 < 2) :
    (applyWrites img ws).data.getD (ws.getD k (0, 0)).1 0 &&& 1 = (ws.getD k (0, 0)).2 := by
  induction ws generalizing img k with
  | nil => simp at hk
  | cons sb rest ih =>
    simp only [applyWrites, List.foldl_cons] at ih ⊢
    cases k with
    | zero =>
      simp only [List.getD_cons_zero] at hs hb ⊢
      have hnotin : ∀ sb' ∈ rest, sb'.1 ≠ sb.1 := by
        intro sb' hm heq
        simp only [List.map_cons, List.nodup_cons] at hnd
        exact hnd.1 (heq ▸ List.mem_map_of_mem Prod.fst hm)
      have hpres := applyWrites_getD_not_mem (spotWrite img sb.1 sb.2) rest sb.1 hnotin
      simp only [applyWrites] at hpres
      rw [hpres, spotWrite_eq]
      rw [getD_set_self _ _ _ hs]
      exact lsb_write_val _ _ hb
    | succ m =>
      simp only [List.getD_cons_succ] at hs hb ⊢
      have hnd' : (rest.map Prod.fst).Nodup := by
        simp only [List.map_cons, List.nodup_cons] at hnd
        exact hnd.2
      have hm : m < rest.length := by simpa using hk
      have hs' : (rest.getD m (0, 0)).1 < (spotWrite img sb.1 sb.2).data.length := by
        rw [spotWrite_length]
        exact hs
      exact ih (spotWrite img sb.1 sb.2) hnd' m hm hs' hb

/-! ### The flat write list of a frame -/

theorem getBit_lt_two (b n : Nat) : getBit b n < 2 :=
  Nat.lt_succ_of_le (Nat.and_le_right)

theorem hideWrites_length (ids : List Nat) (data : List Nat) (iidx : Nat) :
    (hideWrites ids data iidx).length = 8 * data.length := by
  induction data generalizing iidx with
  | nil => simp [hideWrites]
  | cons b rest ih => simp [hideWrites, ih]; omega

theorem hideWrites_getD (ids : List Nat) (data : List Nat) (iidx k : Nat)
    (hk : k < 8 * data.length) :
    (hideWrites ids data iidx).getD k (0, 0) =
      (ids.getD (iidx + k) 0, getBit (data.getD (k / 8) 0) (k % 8)) := by
  induction data generalizing iidx k with
  | nil => simp at hk
  | cons b rest ih =>
    by_cases h8 : k < 8
    · have hfst : (hideWrites ids (b :: rest) iidx).getD k (0, 0) =
          ((List.range 8).map (fun n => (ids.getD (iidx + n) 0, getBit b n))).getD k (0, 0) := by
        simp only [hideWrites]
        rw [List.getD_eq_getElem?_getD, List.getElem?_append_left (by simpa using h8),
          ← List.getD_eq_getElem?_getD]
      rw [hfst, List.getD_eq_getElem _ _ (by simpa using h8)]
      simp only [List.getElem_map, List.getElem_range]
      have : k / 8 = 0 := Nat.div_eq_of_lt h8
      have hm : k % 8 = k := Nat.mod_eq_of_lt h8
      rw [this, hm]
      simp
    · obtain ⟨j, rfl⟩ : ∃ j, k = 8 + j := ⟨k - 8, by omega⟩
      have hfst : (hideWrites ids (b :: rest) iidx).getD (8 + j) (0, 0) =
          (hideWrites ids rest (iidx + 8)).getD j (0, 0) := by
        simp only [hideWrites]
        rw [List.getD_eq_getElem?_getD, List.getElem?_append_right (by simp),
          ← List.getD_eq_getElem?_getD]
        simp
      rw [hfst, ih (iidx + 8) j (by simp at hk; omega)]
      have hd : (8 + j) / 8 = j / 8 + 1 := by omega
      have hm : (8 + j) % 8 = j % 8 := by omega
      rw [hd, hm]
      simp [Nat.add_assoc]

theorem hideWrites_snd_lt (ids : List Nat) (data : List Nat) (iidx : Nat) :
    ∀ sb ∈ hideWrites ids data iidx, sb.2 < 2 := by
  induction data generalizing iidx with
  | nil => simp [hideWrites]
  | cons b rest ih =>
    intro sb hsb
    simp only [hideWrites, List.mem_append, List.mem_map] at hsb
    rcases hsb with ⟨n, _, rfl⟩ | h
    · exact getBit_lt_two b n
    · exact ih (iidx + 8) sb h

theorem map_range_getD_eq_take (l : List Nat) (m : Nat) (hm : m ≤ l.length) :
    (List.range m).map (fun k => l.getD k 0) = l.take m := by
  induction m with
  | zero => simp
  | succ m ih =>
    rw [List.range_succ, List.map_append, ih (by omega), List.take_succ]
    simp [List.getElem?_eq_getElem (show m < l.length by omega),
      List.getD_eq_getElem _ _ (show m < l.length by omega)]

theorem hideWrites_map_fst (ids : List Nat) (data : List Nat) (iidx : Nat) :
    (hideWrites ids data iidx).map Prod.fst =
      (List.range (8 * data.length)).map (fun k => ids.getD (iidx + k) 0) := by
  induction data generalizing iidx with
  | nil => simp [hideWrites]
  | cons b rest ih =>
    have h85 : 8 * (b :: rest).length = 8 + 8 * rest.length := by
      simp only [List.length_cons]
      omega
    rw [h85, List.range_add, List.map_append]
    simp only [hideWrites, List.map_append, List.map_map, ih]
    congr 1
    apply List.map_congr_left
    intro k _
    simp [Nat.add_assoc]

/-! ### Reading bytes back out of the image -/

set_option maxRecDepth 4000 in
theorem byte_or_bits : ∀ B, B < 256 →
    (((((((((0 : Nat) ||| (getBit B 0) <<< 0) ||| (getBit B 1) <<< 1) ||| (getBit B 2) <<< 2) |||
      (getBit B 3) <<< 3) ||| (getBit B 4) <<< 4) ||| (getBit B 5) <<< 5) |||
      (getBit B 6) <<< 6) ||| (getBit B 7) <<< 7) = B := by decide

theorem extractByte_eq (img : Image) (ids : List Nat) (m B : Nat) (hB : B < 256)
    (hin : 8 * m + 8 ≤ ids.length)
    (hbits : ∀ n, n < 8 → spotRead img (ids.getD (8 * m + n) 0) &&& 1 = getBit B n) :
    extractByte img ids (8 * m) = some B := by
  have h8 : List.range 8 = [0, 1, 2, 3, 4, 5, 6, 7] := by decide
  have hsome : ∀ n, n < 8 → ids[8 * m + n]? = some (ids.getD (8 * m + n) 0) := by
    intro n hn
    rw [List.getElem?_eq_getElem (by omega), List.getD_eq_getElem _ _ (by omega)]
  simp only [extractByte, h8, List.foldl]
  simp only [Option.bind_eq_bind, Option.some_bind, hsome 0 (by norm_num), hsome 1 (by norm_num),
    hsome 2 (by norm_num), hsome 3 (by norm_num), hsome 4 (by norm_num), hsome 5 (by norm_num),
    hsome 6 (by norm_num), hsome 7 (by norm_num)]
  rw [hbits 0 (by norm_num), hbits 1 (by norm_num), hbits 2 (by norm_num), hbits 3 (by norm_num),
    hbits 4 (by norm_num), hbits 5 (by norm_num), hbits 6 (by norm_num), hbits 7 (by norm_num)]
  exact congrArg some (byte_or_bits B hB)

theorem extractMsg_eq (img : Image) (ids F : List Nat)
    (hFb : ∀ b ∈ F, b < 256) (hin : 8 * F.length ≤ ids.length)
    (hbits : ∀ k, k < 8 * F.length →
      spotRead img (ids.getD k 0) &&& 1 = getBit (F.getD (k / 8) 0) (k % 8)) :
    ∀ (c m : Nat), m + c ≤ F.length →
      extractMsg img ids (8 * m) c = some ((F.drop m).take c) := by
  intro c
  induction c with
  | zero =>
    intro m hm
    simp [extractMsg]
  | succ c ih =>
    intro m hm
    have hmlt : m < F.length := by omega
    have hB : F.getD m 0 < 256 := by
      have hmem : F.getD m 0 ∈ F := by
        rw [List.getD_eq_getElem _ _ hmlt]
        exact List.getElem_mem hmlt
      exact hFb _ hmem
    have hbyte : extractByte img ids (8 * m) = some (F.getD m 0) := by
      apply extractByte_eq img ids m _ hB (by omega)
      intro n hn
      have hk : 8 * m + n < 8 * F.length := by omega
      have hh := hbits (8 * m + n) hk
      rwa [show (8 * m + n) / 8 = m by omega, show (8 * m + n) % 8 = n by omega] at hh
    have hrest : extractMsg img ids (8 * m + 8) c = some ((F.drop (m + 1)).take c) := by
      have hih := ih (m + 1) (by omega)
      rwa [show 8 * (m + 1) = 8 * m + 8 by ring] at hih
    simp only [extractMsg, hbyte, hrest, Option.bind_eq_bind, Option.some_bind]
    congr 1
    rw [List.drop_eq_getElem_cons hmlt, List.take_succ_cons, List.getD_eq_getElem _ _ hmlt]

/-! ### Decoding the little-endian length header -/

theorem header_decode (len : Nat) (h : len < 2 ^ 24) :
    (len &&& 0xff) ||| (((len >>> 8) &&& 0xff) <<< 8) ||| (((len >>> 16) &&& 0xff) <<< 16)
      = len := by
  apply Nat.eq_of_testBit_eq
  intro i
  have hff : ∀ j, (0xff : Nat).testBit j = decide (j < 8) := by
    intro j
    rw [show (0xff : Nat) = 2 ^ 8 - 1 from rfl, Nat.testBit_two_pow_sub_one]
  simp only [Nat.testBit_or, Nat.testBit_and, Nat.testBit_shiftLeft, Nat.testBit_shiftRight, hff]
  by_cases h8 : i < 8
  · simp [h8, show ¬ (8 ≤ i) by omega, show ¬ (16 ≤ i) by omega]
  · by_cases h16 : i < 16
    · simp [h8, show 8 ≤ i by omega, show ¬ (16 ≤ i) by omega, show i - 8 < 8 by omega,
        show 8 + (i - 8) = i by omega]
    · by_cases h24 : i < 24
      · simp [h8, show 8 ≤ i by omega, show ¬ (i - 8 < 8) by omega, show 16 ≤ i by omega,
          show i - 16 < 8 by omega, show 16 + (i - 16) = i by omega]
      · have hlen : len.testBit i = false := by
          apply Nat.testBit_lt_two_pow
          calc len < 2 ^ 24 := h
            _ ≤ 2 ^ i := Nat.pow_le_pow_right (by norm_num) (by omega)
        simp [h8, show 8 ≤ i by omega, show ¬ (i - 8 < 8) by omega, show 16 ≤ i by omega,
          show ¬ (i - 16 < 8) by omega, hlen]

/-! ### The frame produced by fn main -/

theorem frame_length (msg : List Nat) : (frame msg).length = msg.length + 3 := by
  simp [frame]

theorem frame_drop3 (msg : List Nat) : (frame msg).drop 3 = msg := rfl

theorem frame_bytes (msg : List Nat) (hmsg : ∀ b ∈ msg, b < 256) :
    ∀ b ∈ frame msg, b < 256 := by
  intro b hb
  simp only [frame, List.mem_cons] at hb
  rcases hb with rfl | rfl | rfl | hmem
  · exact Nat.lt_succ_of_le (Nat.and_le_right)
  · exact Nat.lt_succ_of_le (Nat.and_le_right)
  · exact Nat.lt_succ_of_le (Nat.and_le_right)
  · exact hmsg b hmem

/-! ### What successful embedding writes into the image -/

theorem hide_data_ok (F : List Nat) (img : Image) (st : PrngState)
    (hcap : F.length * 8 ≤ hiddingSpots img) :
    hide_data F img st =
      (.ok (),
        applyWrites img (hideWrites (shuffle (List.range (hiddingSpots img)) st).1 F 0),
        (shuffle (List.range (hiddingSpots img)) st).2) := by
  unfold hide_data
  rw [if_neg (by omega)]
  simp only []
  rw [hideLoop_eq]

theorem embed_spots_nodup (ids : List Nat) (n : Nat) (F : List Nat)
    (hperm : ids.Perm (List.range n)) (hcap : 8 * F.length ≤ n) :
    ((hideWrites ids F 0).map Prod.fst).Nodup := by
  have hlen : ids.length = n := by simpa using hperm.length_eq
  rw [hideWrites_map_fst]
  have heq : (List.range (8 * F.length)).map (fun k => ids.getD (0 + k) 0) =
      (List.range (8 * F.length)).map (fun k => ids.getD k 0) := by
    apply List.map_congr_left
    intro k _
    rw [Nat.zero_add]
  rw [heq, map_range_getD_eq_take _ _ (by omega)]
  exact List.Nodup.sublist (List.take_sublist _ _)
    (hperm.nodup_iff.mpr (List.nodup_range n))

theorem embed_bits (img : Image) (F : List Nat) (ids : List Nat) (n : Nat)
    (hperm : ids.Perm (List.range n)) (hWf : img.data.length = n)
    (hcap : 8 * F.length ≤ n) :
    ∀ k, k < 8 * F.length →
      spotRead (applyWrites img (hideWrites ids F 0)) (ids.getD k 0) &&& 1
        = getBit (F.getD (k / 8) 0) (k % 8) := by
  intro k hk
  have hlen : ids.length = n := by simpa using hperm.length_eq
  have hklen : k < (hideWrites ids F 0).length := by
    rw [hideWrites_length]
    exact hk
  have hgetD : (hideWrites ids F 0).getD k (0, 0) =
      (ids.getD k 0, getBit (F.getD (k / 8) 0) (k % 8)) := by
    rw [hideWrites_getD _ _ _ _ hk, Nat.zero_add]
  have hspot_lt : (ids.getD k 0) < n := by
    have hkid : k < ids.length := by omega
    have hmem : ids.getD k 0 ∈ ids := by
      rw [List.getD_eq_getElem _ _ hkid]
      exact List.getElem_mem hkid
    exact List.mem_range.mp (hperm.mem_iff.mp hmem)
  have hlsb := applyWrites_lsb img (hideWrites ids F 0)
    (embed_spots_nodup ids n F hperm hcap) k hklen
    (by rw [hgetD]; simpa [hWf] using hspot_lt)
    (by rw [hgetD]; exact getBit_lt_two _ _)
  rw [spotRead_eq]
  rw [hgetD] at hlsb
  simpa using hlsb

/-! ### The round trip for an arbitrary generator state -/

theorem extract_data_eq (img : Image) (s : PrngState) :
    extract_data img s =
      (extractByte img (shuffle (List.range (hiddingSpots img)) s).1 0).bind (fun h0 =>
        (extractByte img (shuffle (List.range (hiddingSpots img)) s).1 8).bind (fun h1 =>
          (extractByte img (shuffle (List.range (hiddingSpots img)) s).1 16).bind (fun h2 =>
            if (h0 ||| h1 <<< 8 ||| h2 <<< 16) * 8 + 3 > hiddingSpots img then
              some (.error .oversizedHeader)
            else
              (extractMsg img (shuffle (List.range (hiddingSpots img)) s).1 24
                (h0 ||| h1 <<< 8 ||| h2 <<< 16)).bind (fun msg => some (.ok msg))))) :=
  rfl

theorem hide_then_extract (img : Image) (P : List Nat) (st : PrngState)
    (hWf : img.data.length = hiddingSpots img)
    (hbytes : ∀ b ∈ P, b < 256)
    (hlen : P.length ≤ 0xFFFFFF)
    (hcap : 24 + 8 * P.length ≤ hiddingSpots img) :
    (hide_data (frame P) img st).1 = .ok () ∧
      extract_data (hide_data (frame P) img st).2.1 st = some (.ok P) := by
  have hFlen : (frame P).length = P.length + 3 := frame_length P
  have hcap' : (frame P).length * 8 ≤ hiddingSpots img := by rw [hFlen]; omega
  have hok := hide_data_ok (frame P) img st hcap'
  have hperm := shuffle_range_perm (hiddingSpots img) st
  have hidslen := shuffle_range_length (hiddingSpots img) st
  refine ⟨by rw [hok], ?_⟩
  have hbits := embed_bits img (frame P) (shuffle (List.range (hiddingSpots img)) st).1
    (hiddingSpots img) hperm hWf (by omega)
  have hFb := frame_bytes P hbytes
  have hW := applyWrites_width img
    (hideWrites (shuffle (List.range (hiddingSpots img)) st).1 (frame P) 0)
  have hH := applyWrites_height img
    (hideWrites (shuffle (List.range (hiddingSpots img)) st).1 (frame P) 0)
  have hspots' : hiddingSpots (applyWrites img
      (hideWrites (shuffle (List.range (hiddingSpots img)) st).1 (frame P) 0)) =
      hiddingSpots img := by
    simp only [hiddingSpots] at hW hH ⊢
    rw [hW, hH]
  have hbyteM : ∀ m, m < (frame P).length →
      extractByte (applyWrites img
          (hideWrites (shuffle (List.range (hiddingSpots img)) st).1 (frame P) 0))
        (shuffle (List.range (hiddingSpots img)) st).1 (8 * m) =
        some ((frame P).getD m 0) := by
    intro m hm
    have hmem : (frame P).getD m 0 ∈ frame P := by
      rw [List.getD_eq_getElem _ _ hm]
      exact List.getElem_mem hm
    apply extractByte_eq _ _ m _ (hFb _ hmem) (by omega)
    intro n hn
    have hk : 8 * m + n < 8 * (frame P).length := by omega
    have hh := hbits (8 * m + n) hk
    rwa [show (8 * m + n) / 8 = m by omega, show (8 * m + n) % 8 = n by omega] at hh
  have hb0 := hbyteM 0 (by omega)
  have hb1 := hbyteM 1 (by omega)
  have hb2 := hbyteM 2 (by omega)
  rw [show 8 * 0 = 0 by norm_num] at hb0
  rw [show 8 * 1 = 8 by norm_num] at hb1
  rw [show 8 * 2 = 16 by norm_num] at hb2
  have hdec : ((frame P).getD 0 0) ||| (((frame P).getD 1 0) <<< 8) |||
      (((frame P).getD 2 0) <<< 16) = P.length := by
    show (P.length &&& 0xff) ||| (((P.length >>> 8) &&& 0xff) <<< 8) |||
      (((P.length >>> 16) &&& 0xff) <<< 16) = P.length
    exact header_decode P.length (by norm_num at hlen ⊢; omega)
  have hmsg24 := extractMsg_eq
    (applyWrites img (hideWrites (shuffle (List.range (hiddingSpots img)) st).1 (frame P) 0))
    (shuffle (List.range (hiddingSpots img)) st).1 (frame P) hFb (by omega) hbits
    P.length 3 (by omega)
  rw [show 8 * 3 = 24 by norm_num, frame_drop3, List.take_length] at hmsg24
  have himgPrj : (hide_data (frame P) img st).2.1 = applyWrites img
      (hideWrites (shuffle (List.range (hiddingSpots img)) st).1 (frame P) 0) := by
    rw [hok]
  rw [himgPrj, extract_data_eq, hspots', hb0, hb1, hb2]
  simp only [Option.some_bind]
  rw [hdec, if_neg (by omega), hmsg24]
  simp only [Option.some_bind]

/-! ### The PRG step against the spec formulas -/

theorem shiftRight_le_self (x n : Nat) : x >>> n ≤ x := by
  rw [Nat.shiftRight_eq_div_pow]
  exact Nat.div_le_self x _

theorem rotl_eq_rotlSpec (x k : Nat) (hx : x < 2 ^ 64) : rotl x k = rotlSpec x k := by
  apply Nat.eq_of_testBit_eq
  intro i
  simp only [rotl, rotlSpec, Nat.testBit_or, Nat.testBit_mod_two_pow]
  by_cases hi : i < 64
  · simp [hi]
  · have hxr : (x >>> (64 - k)).testBit i = false := by
      apply Nat.testBit_lt_two_pow
      calc x >>> (64 - k) ≤ x := shiftRight_le_self x _
        _ < 2 ^ 64 := hx
        _ ≤ 2 ^ i := Nat.pow_le_pow_right (by norm_num) (by omega)
    simp [hi, hxr]

theorem rotl_lt (x k : Nat) (hx : x < 2 ^ 64) : rotl x k < 2 ^ 64 :=
  Nat.or_lt_two_pow (Nat.mod_lt _ (by positivity))
    (Nat.lt_of_le_of_lt (shiftRight_le_self x _) hx)

/-! ### Shape of the SHA-256 digest -/

theorem sha256Round_length (w st : List Nat) (i : Nat) : (sha256Round w st i).length = 8 := by
  simp [sha256Round]

theorem foldl_sha256Round_length (w : List Nat) (l : List Nat) (st : List Nat)
    (hst : st.length = 8) : (l.foldl (sha256Round w) st).length = 8 := by
  induction l generalizing st with
  | nil => simpa
  | cons i rest ih => exact ih _ (sha256Round_length w st i)

theorem compressBlock_length (H block : List Nat) (hH : H.length = 8) :
    (compressBlock H block).length = 8 := by
  unfold compressBlock
  rw [List.length_zipWith, hH, foldl_sha256Round_length _ _ _ hH]
  rfl

theorem foldl_compressBlock_length (blocks : List (List Nat)) (H : List Nat)
    (hH : H.length = 8) : (blocks.foldl compressBlock H).length = 8 := by
  induction blocks generalizing H with
  | nil => simpa
  | cons b rest ih => exact ih _ (compressBlock_length H b hH)

theorem flatMap4_length (l : List Nat) :
    (l.flatMap (fun w =>
      [(w >>> 24) &&& 0xff, (w >>> 16) &&& 0xff, (w >>> 8) &&& 0xff, w &&& 0xff])).length
      = 4 * l.length := by
  induction l with
  | nil => simp
  | cons w rest ih =>
    simp only [List.flatMap_cons, List.length_append, List.length_cons, List.length_nil, ih]
    omega

theorem sha256_length (msg : List Nat) : (sha256 msg).length = 32 := by
  unfold sha256
  rw [flatMap4_length, foldl_compressBlock_length _ _ (by rfl)]

theorem sha256_bytes (msg : List Nat) : ∀ b ∈ sha256 msg, b < 256 := by
  intro b hb
  unfold sha256 at hb
  rw [List.mem_flatMap] at hb
  obtain ⟨w, _, hmem⟩ := hb
  simp only [List.mem_cons, List.not_mem_nil, or_false] at hmem
  rcases hmem with rfl | rfl | rfl | rfl <;>
    exact Nat.lt_succ_of_le (Nat.and_le_right)

theorem fromBeBytes_aux_lt (l : List Nat) (acc : Nat) (h : ∀ b ∈ l, b < 256) :
    l.foldl (fun a b => a * 256 + b) acc < (acc + 1) * 256 ^ l.length := by
  induction l generalizing acc with
  | nil => simp
  | cons b t ih =>
    have hb : b < 256 := h b (by simp)
    have ht : ∀ b' ∈ t, b' < 256 := fun b' hm => h b' (by simp [hm])
    have hstep := ih (acc * 256 + b) ht
    calc (b :: t).foldl (fun a b => a * 256 + b) acc
        = t.foldl (fun a b => a * 256 + b) (acc * 256 + b) := by simp
      _ < (acc * 256 + b + 1) * 256 ^ t.length := hstep
      _ ≤ ((acc + 1) * 256) * 256 ^ t.length := by
          apply Nat.mul_le_mul_right
          omega
      _ = (acc + 1) * 256 ^ (t.length + 1) := by ring
      _ = (acc + 1) * 256 ^ (b :: t).length := by simp

theorem fromBeBytes_lt (l : List Nat) (h : ∀ b ∈ l, b < 256) :
    fromBeBytes l < 256 ^ l.length := by
  have := fromBeBytes_aux_lt l 0 h
  simpa [fromBeBytes] using this

/-! ## The claims -/

/-- Claim C1.  Round-trip: for every key K, every image whose hiding-spot
count N = width*height*3 satisfies N >= 24 + 8*len(P), and every payload
P of bytes with len(P) <= 0xFFFFFF, embedding the 3-byte-length-prefixed
frame of P into the image with PRG state seed(K) succeeds, and
extracting from the resulting image with a fresh PRG state seed(K)
returns exactly P. -/
theorem round_trip (key : List Nat) (img : Image) (P : List Nat)
    (hWf : img.data.length = hiddingSpots img)
    (hbytes : ∀ b ∈ P, b < 256)
    (hlen : P.length ≤ 0xFFFFFF)
    (hcap : 24 + 8 * P.length ≤ hiddingSpots img) :
    (hide_data (frame P) img (seed key)).1 = .ok () ∧
      extract_data (hide_data (frame P) img (seed key)).2.1 (seed key) = some (.ok P) :=
  hide_then_extract img P (seed key) hWf hbytes hlen hcap

/-- Witness for C1 at the concrete instance of spec scenario A scaled to
a 4x4 image: empty key, payload "hi". -/
theorem round_trip_witness :
    ((⟨4, 4, List.replicate 48 0⟩ : Image).data.length =
        hiddingSpots ⟨4, 4, List.replicate 48 0⟩) ∧
    (∀ b ∈ [0x68, 0x69], b < 256) ∧
    ([0x68, 0x69] : List Nat).length ≤ 0xFFFFFF ∧
    (24 + 8 * ([0x68, 0x69] : List Nat).length ≤ hiddingSpots ⟨4, 4, List.replicate 48 0⟩) ∧
    ((hide_data (frame [0x68, 0x69]) ⟨4, 4, List.replicate 48 0⟩ (seed [])).1 = .ok () ∧
      extract_data (hide_data (frame [0x68, 0x69]) ⟨4, 4, List.replicate 48 0⟩ (seed [])).2.1
          (seed []) = some (.ok [0x68, 0x69])) :=
  ⟨by decide, by decide, by decide, by decide,
    round_trip [] ⟨4, 4, List.replicate 48 0⟩ [0x68, 0x69]
      (by decide) (by decide) (by decide) (by decide)⟩

/-- Claim C2 (code bug).  The extractor validates the recovered length
with msg_len * 8 + 3 <= N instead of the intended 24 + msg_len * 8 <= N.
On a 10x1 image (N = 30) whose lowest bits decode to msg_len = 1 under
the all-zero PRG state, the spec-side check 24 + 8 <= 30 fails, so the
claim demands an OversizedHeader failure; the code-side check 8 + 3 <= 30
passes and the subsequent payload read indexes the 30-entry permutation
at position 31 and panics (modelled as none). -/
theorem extract_weak_header_check :
    (extractByte ⟨10, 1, List.replicate 29 0 ++ [1]⟩
        (shuffle (List.range 30) ⟨0, 0, 0, 0⟩).1 0 = some 1) ∧
    (extractByte ⟨10, 1, List.replicate 29 0 ++ [1]⟩
        (shuffle (List.range 30) ⟨0, 0, 0, 0⟩).1 8 = some 0) ∧
    (extractByte ⟨10, 1, List.replicate 29 0 ++ [1]⟩
        (shuffle (List.range 30) ⟨0, 0, 0, 0⟩).1 16 = some 0) ∧
    ¬ (24 + 1 * 8 ≤ hiddingSpots ⟨10, 1, List.replicate 29 0 ++ [1]⟩) ∧
    (1 * 8 + 3 ≤ hiddingSpots ⟨10, 1, List.replicate 29 0 ++ [1]⟩) ∧
    extract_data ⟨10, 1, List.replicate 29 0 ++ [1]⟩ ⟨0, 0, 0, 0⟩ = none :=
  ⟨rfl, rfl, rfl, by decide, by decide, rfl⟩

/-- Claim C3 (code bug).  fn main performs no validation of the payload
length before framing: a payload of 0xFFFFFF + 1 = 16777216 bytes is
framed with its length silently truncated to the low 24 bits (header
[0, 0, 0]), no length-overflow error exists, and the call proceeds to
the capacity check of hide_data, which on a 10x10 image reports the
capacity error for the oversized frame. -/
theorem frame_no_length_validation :
    16777216 > 0xFFFFFF ∧
    (frame (List.replicate 16777216 0)).take 3 = [0, 0, 0] ∧
    hide_data (frame (List.replicate 16777216 0)) ⟨10, 10, List.replicate 300 0⟩ ⟨0, 0, 0, 0⟩ =
      (.error (.capacity 134217752 300), ⟨10, 10, List.replicate 300 0⟩, ⟨0, 0, 0, 0⟩) := by
  have hl : (List.replicate 16777216 (0 : Nat)).length = 16777216 :=
    List.length_replicate _ _
  refine ⟨by norm_num, ?_, ?_⟩
  · unfold frame
    rw [hl]
    decide
  · have hcond : (frame (List.replicate 16777216 0)).length * 8 >
        hiddingSpots ⟨10, 10, List.replicate 300 0⟩ := by
      rw [frame_length, hl]
      decide
    unfold hide_data
    rw [if_pos hcond, frame_length, hl]
    norm_num [hiddingSpots]

/-- Claim C4.  For every n >= 1 and every PRG state, shuffling the
vector [0, .., n-1] returns a bijection on 0..n-1: the result still has
length n and every value below n occurs exactly once. -/
theorem shuffle_builds_permutation (n : Nat) (s : PrngState) (_hn : 1 ≤ n) :
    (shuffle (List.range n) s).1.length = n ∧
      ∀ k, k < n → (shuffle (List.range n) s).1.count k = 1 := by
  refine ⟨shuffle_range_length n s, ?_⟩
  intro k hk
  have hmem : k ∈ (shuffle (List.range n) s).1 :=
    (shuffle_range_perm n s).mem_iff.mpr (List.mem_range.mpr hk)
  exact List.count_eq_one_of_mem (shuffle_range_nodup n s) hmem

/-- Witness for C4 at n = 3 with the all-zero state, checking the count
of the value 2. -/
theorem shuffle_builds_permutation_witness :
    1 ≤ 3 ∧ (shuffle (List.range 3) ⟨0, 0, 0, 0⟩).1.count 2 = 1 :=
  ⟨by decide, (shuffle_builds_permutation 3 ⟨0, 0, 0, 0⟩ (by decide)).2 2 (by decide)⟩

/-- Claim C5.  hide_data fails with the capacity error carrying
needed = len(data) * 8 and available = N exactly when len(data) * 8 > N,
and on that failure both the image and the PRG state are returned
untouched (the check runs before the permutation is built). -/
theorem hide_capacity_check (data : List Nat) (img : Image) (s : PrngState) :
    (data.length * 8 > hiddingSpots img →
      hide_data data img s =
        (.error (.capacity (data.length * 8) (hiddingSpots img)), img, s)) ∧
    (data.length * 8 ≤ hiddingSpots img → (hide_data data img s).1 = .ok ()) := by
  constructor
  · intro h
    unfold hide_data
    rw [if_pos h]
  · intro h
    rw [hide_data_ok data img s (by omega)]

/-- Witness for C5: a 1-byte message needs 8 bits but a 1x1 image has
only 3 hiding spots; the image bytes and state come back unchanged. -/
theorem hide_capacity_check_witness :
    ([1] : List Nat).length * 8 > hiddingSpots ⟨1, 1, [5, 6, 7]⟩ ∧
    hide_data [1] ⟨1, 1, [5, 6, 7]⟩ ⟨0, 0, 0, 0⟩ =
      (.error (.capacity 8 3), ⟨1, 1, [5, 6, 7]⟩, ⟨0, 0, 0, 0⟩) :=
  ⟨by decide, (hide_capacity_check [1] ⟨1, 1, [5, 6, 7]⟩ ⟨0, 0, 0, 0⟩).1 (by decide)⟩

/-- Claim C6.  A successful embed mutates only the channel bytes
addressed by the first len(data) * 8 permutation entries, and for every
channel byte (touched or not) bits 1 to 7 are unchanged, so a touched
byte changes at most in its least-significant bit. -/
theorem hide_channel_isolation (data : List Nat) (img : Image) (s : PrngState)
    (hcap : data.length * 8 ≤ hiddingSpots img) :
    (hide_data data img s).1 = .ok () ∧
    (hide_data data img s).2.1.data.length = img.data.length ∧
    (∀ p, (∀ k, k < 8 * data.length →
        (shuffle (List.range (hiddingSpots img)) s).1.getD k 0 ≠ p) →
      (hide_data data img s).2.1.data.getD p 0 = img.data.getD p 0) ∧
    (∀ p i, 1 ≤ i → i ≤ 7 →
      ((hide_data data img s).2.1.data.getD p 0).testBit i =
        (img.data.getD p 0).testBit i) := by
  rw [hide_data_ok data img s (by omega)]
  refine ⟨rfl, applyWrites_length _ _, ?_, ?_⟩
  · intro p hp
    apply applyWrites_getD_not_mem
    intro sb hsb
    have hfst : sb.1 ∈ (hideWrites (shuffle (List.range (hiddingSpots img)) s).1 data 0).map
        Prod.fst := List.mem_map_of_mem Prod.fst hsb
    rw [hideWrites_map_fst] at hfst
    obtain ⟨k, hk, hval⟩ := List.mem_map.mp hfst
    rw [Nat.zero_add] at hval
    rw [← hval]
    exact hp k (List.mem_range.mp hk)
  · intro p i h1 h7
    exact applyWrites_testBit _ _ _ _ (hideWrites_snd_lt _ _ _) h1 h7

/-- Witness for C6 on a 2x2 image of 0xff bytes with the all-zero state:
spot 9 is outside the 8 touched spots and keeps its byte; spot 11 is the
first touched spot and keeps bit 3. -/
theorem hide_channel_isolation_witness :
    ([5] : List Nat).length * 8 ≤ hiddingSpots ⟨2, 2, List.replicate 12 255⟩ ∧
    (hide_data [5] ⟨2, 2, List.replicate 12 255⟩ ⟨0, 0, 0, 0⟩).2.1.data.getD 9 0 =
      (⟨2, 2, List.replicate 12 255⟩ : Image).data.getD 9 0 ∧
    ((hide_data [5] ⟨2, 2, List.replicate 12 255⟩ ⟨0, 0, 0, 0⟩).2.1.data.getD 11 0).testBit 3 =
      ((⟨2, 2, List.replicate 12 255⟩ : Image).data.getD 11 0).testBit 3 :=
  ⟨by decide,
    (hide_channel_isolation [5] ⟨2, 2, List.replicate 12 255⟩ ⟨0, 0, 0, 0⟩
      (by decide)).2.2.1 9 (by decide),
    (hide_channel_isolation [5] ⟨2, 2, List.replicate 12 255⟩ ⟨0, 0, 0, 0⟩
      (by decide)).2.2.2 11 3 (by decide) (by decide)⟩

/-- Claim C7.  On any state of four u64 words, one PRG step returns
rotl64(s0 + s3, 23) + s0 in wrapping 64-bit arithmetic and performs
exactly the state updates listed in the spec (nextSpec transcribes the
spec text), and all outputs remain u64 words. -/
theorem xoshiro_matches_spec (s : PrngState)
    (h0 : s.s0 < 2 ^ 64) (h1 : s.s1 < 2 ^ 64) (h2 : s.s2 < 2 ^ 64) (h3 : s.s3 < 2 ^ 64) :
    xoshiro256pp s = nextSpec s ∧
    (xoshiro256pp s).1 < 2 ^ 64 ∧
    (xoshiro256pp s).2.s0 < 2 ^ 64 ∧ (xoshiro256pp s).2.s1 < 2 ^ 64 ∧
    (xoshiro256pp s).2.s2 < 2 ^ 64 ∧ (xoshiro256pp s).2.s3 < 2 ^ 64 := by
  refine ⟨?_, ?_, ?_, ?_, ?_, ?_⟩
  · simp only [xoshiro256pp, nextSpec]
    rw [rotl_eq_rotlSpec ((s.s0 + s.s3) % 2 ^ 64) 23 (Nat.mod_lt _ (by positivity)),
      rotl_eq_rotlSpec (s.s3 ^^^ s.s1) 45 (Nat.xor_lt_two_pow h3 h1)]
  · exact Nat.mod_lt _ (by positivity)
  · exact Nat.xor_lt_two_pow h0 (Nat.xor_lt_two_pow h3 h1)
  · exact Nat.xor_lt_two_pow h1 (Nat.xor_lt_two_pow h2 h0)
  · exact Nat.xor_lt_two_pow (Nat.xor_lt_two_pow h2 h0) (Nat.mod_lt _ (by positivity))
  · exact rotl_lt _ _ (Nat.xor_lt_two_pow h3 h1)

/-- Witness for C7 at the state (1, 2, 3, 4). -/
theorem xoshiro_matches_spec_witness :
    ((1 : Nat) < 2 ^ 64 ∧ (2 : Nat) < 2 ^ 64 ∧ (3 : Nat) < 2 ^ 64 ∧ (4 : Nat) < 2 ^ 64) ∧
    (xoshiro256pp ⟨1, 2, 3, 4⟩ = nextSpec ⟨1, 2, 3, 4⟩ ∧
      (xoshiro256pp ⟨1, 2, 3, 4⟩).1 < 2 ^ 64 ∧
      (xoshiro256pp ⟨1, 2, 3, 4⟩).2.s0 < 2 ^ 64 ∧ (xoshiro256pp ⟨1, 2, 3, 4⟩).2.s1 < 2 ^ 64 ∧
      (xoshiro256pp ⟨1, 2, 3, 4⟩).2.s2 < 2 ^ 64 ∧ (xoshiro256pp ⟨1, 2, 3, 4⟩).2.s3 < 2 ^ 64) :=
  ⟨⟨by decide, by decide, by decide, by decide⟩,
    xoshiro_matches_spec ⟨1, 2, 3, 4⟩ (by decide) (by decide) (by decide) (by decide)⟩

/-- Claim C8.  The key seeder hashes the key with SHA-256 (sha256 is
modelled from the spec, since the sha2 crate is outside this
repository), obtains a 32-byte digest, and assigns the digest to the
four PRG state words as four consecutive 8-byte big-endian unsigned
integers, each a u64; it is a total function of the key. -/
theorem seed_spec (key : List Nat) :
    (sha256 key).length = 32 ∧
    (∀ b ∈ sha256 key, b < 256) ∧
    seed key = ⟨fromBeBytes ((sha256 key).take 8), fromBeBytes (((sha256 key).drop 8).take 8),
      fromBeBytes (((sha256 key).drop 16).take 8),
      fromBeBytes (((sha256 key).drop 24).take 8)⟩ ∧
    (seed key).s0 < 2 ^ 64 ∧ (seed key).s1 < 2 ^ 64 ∧
    (seed key).s2 < 2 ^ 64 ∧ (seed key).s3 < 2 ^ 64 := by
  have hlen := sha256_length key
  have hbytes := sha256_bytes key
  have hword : ∀ l : List Nat, l.length = 8 → (∀ b ∈ l, b < 256) → fromBeBytes l < 2 ^ 64 := by
    intro l hl hb
    have := fromBeBytes_lt l hb
    rw [hl] at this
    calc fromBeBytes l < 256 ^ 8 := this
      _ = 2 ^ 64 := by norm_num
  refine ⟨hlen, hbytes, rfl, ?_, ?_, ?_, ?_⟩
  · exact hword _ (by rw [List.length_take, hlen]; decide) (fun b hb => hbytes b (List.mem_of_mem_take hb))
  · exact hword _ (by rw [List.length_take, List.length_drop, hlen]; decide) (fun b hb =>
      hbytes b (List.mem_of_mem_drop (List.mem_of_mem_take hb)))
  · exact hword _ (by rw [List.length_take, List.length_drop, hlen]; decide) (fun b hb =>
      hbytes b (List.mem_of_mem_drop (List.mem_of_mem_take hb)))
  · exact hword _ (by rw [List.length_take, List.length_drop, hlen]; decide) (fun b hb =>
      hbytes b (List.mem_of_mem_drop (List.mem_of_mem_take hb)))

/-- Witness for C8 (the theorem has no hypotheses): the digest of the
empty key has 32 bytes. -/
theorem seed_spec_witness : (sha256 []).length = 32 :=
  (seed_spec []).1

/-- Claim C9 (code bug).  On a 0x0 image (no hiding spots), hide_data of
the 3-byte frame of the empty message returns the capacity error with
the image and PRG state untouched and no PRG draw taken (the empty
shuffle leaves the state unchanged), but extract_data does not fail
with an error: it panics (none) on the out-of-bounds read of the first
permutation entry, before any PRG draw. -/
theorem zero_spots_behavior :
    extract_data ⟨0, 0, []⟩ ⟨1, 2, 3, 4⟩ = none ∧
    hide_data [0, 0, 0] ⟨0, 0, []⟩ ⟨1, 2, 3, 4⟩ =
      (.error (.capacity 24 0), ⟨0, 0, []⟩, ⟨1, 2, 3, 4⟩) ∧
    (shuffle (List.range (hiddingSpots ⟨0, 0, []⟩)) ⟨1, 2, 3, 4⟩).2 = ⟨1, 2, 3, 4⟩ :=
  ⟨rfl, rfl, rfl⟩

/-- Claim C10 (code bug).  The out-of-bounds branch of the permutation
indexing in extract_data is reachable: on a 1x1 image the permutation
has 3 entries but the unconditional header read consumes 24, so
extraction panics (none) for every state; shown at the all-zero state. -/
theorem extract_oob_panic_1x1 :
    extract_data ⟨1, 1, [0, 0, 0]⟩ ⟨0, 0, 0, 0⟩ = none :=
  rfl

set_option maxRecDepth 20000 in
/-- Validation of the spec-modelled SHA-256 against the FIPS 180-4 test
vector for the empty message. -/
theorem sha256_empty_vector :
    sha256 [] =
      [0xe3, 0xb0, 0xc4, 0x42, 0x98, 0xfc, 0x1c, 0x14, 0x9a, 0xfb, 0xf4, 0xc8, 0x99, 0x6f,
       0xb9, 0x24, 0x27, 0xae, 0x41, 0xe4, 0x64, 0x9b, 0x93, 0x4c, 0xa4, 0x95, 0x99, 0x1b,
       0x78, 0x52, 0xb8, 0x55] := by
  decide

set_option maxRecDepth 20000 in
/-- Validation of the spec-modelled SHA-256 against the FIPS 180-4 test
vector for "abc", which exercises a non-empty single block. -/
theorem sha256_abc_vector :
    sha256 [0x61, 0x62, 0x63] =
      [0xba, 0x78, 0x16, 0xbf, 0x8f, 0x01, 0xcf, 0xea, 0x41, 0x41, 0x40, 0xde, 0x5d, 0xae,
       0x22, 0x23, 0xb0, 0x03, 0x61, 0xa3, 0x96, 0x17, 0x7a, 0x9c, 0xb4, 0x10, 0xff, 0x61,
       0xf2, 0x00, 0x15, 0xad] := by
  decide

end Stegegg
